import Mathlib

/-!
Verification of the comma-separated tokenizer (`CommaSeparatedIterator` from
`src/lib.rs`).  Strings are modelled as `List Char`; the iterator state is the
remaining window, and `next` / `nextBack` return the yielded token together
with the new remaining window.
-/

set_option maxRecDepth 10000

namespace CommaSeparated

/-- Mirrors the Rust enum `Quote { Single, Double }`. -/
inductive Quote
  | single
  | double
  deriving DecidableEq, Repr

/-- Mirrors the Rust enum `CommaSeparatedIteratorState`:
`Default`, `Quoted(Quote)`, `QuotedEscape(Quote)`. -/
inductive State
  | default
  | quoted (q : Quote)
  | quotedEscape (q : Quote)
  deriving DecidableEq, Repr

/-- The quote character matching a quote kind. -/
def quoteChar : Quote → Char
  | .single => '\''
  | .double => '"'

/-- One transition of the forward scan's state machine: the arms of the
`match (state, c)` in `Iterator::next`, except the `(Default, ',')` arm,
which returns from the loop and is handled in `scanF`. -/
def stepF (st : State) (c : Char) : State :=
  match st with
  | .default =>
    if c = '"' then .quoted .double
    else if c = '\'' then .quoted .single
    else .default
  | .quoted q =>
    if c = quoteChar q then .default
    else if c = '\\' then .quotedEscape q
    else .quoted q
  | .quotedEscape q => .quoted q

/-- The forward scan loop of `Iterator::next`: walk the characters, updating
the state with `stepF`; on a comma in `Default` state return the token
(characters before the comma) and the rest (characters after the comma);
`none` means the walk reached the end without finding a delimiter. -/
def scanF : State → List Char → Option (List Char × List Char)
  | _, [] => none
  | st, c :: rest =>
    if st = .default ∧ c = ',' then some ([], rest)
    else (scanF (stepF st c) rest).map fun tr => (c :: tr.1, tr.2)

/-- Rust `Iterator::next` on the remaining window: `none` iff the window is
empty; otherwise the token and the new remaining window. -/
def next (s : List Char) : Option (List Char × List Char) :=
  if s = [] then none
  else
    match scanF .default s with
    | some tr => some tr
    | none => some (s, [])

/-- Forward fold of the state machine over a list of characters. -/
def runState (st : State) (l : List Char) : State :=
  l.foldl stepF st

/-- The backward peek: the character immediately to the left, which inside a
sub-run is the head of the still-unprocessed part, and at its end the
surrounding context `p`. -/
def peek : List Char → Option Char → Option Char
  | [], p => p
  | c :: _, _ => some c

/-- One transition of the backward scan's state machine: the arms of the
`match (state, c)` in `DoubleEndedIterator::next_back`, except the
`(Default, ',')` arm.  `p` is `char_indices.peek()`, the character
immediately to the left.  A matching quote seen while `Quoted` is treated
as escaped (state unchanged) when that character is a backslash. -/
def stepB (st : State) (c : Char) (p : Option Char) : State :=
  match st with
  | .default =>
    if c = '"' then .quoted .double
    else if c = '\'' then .quoted .single
    else .default
  | .quoted .double =>
    if c = '"' then (if p = some '\\' then .quoted .double else .default)
    else .quoted .double
  | .quoted .single =>
    if c = '\'' then (if p = some '\\' then .quoted .single else .default)
    else .quoted .single
  | .quotedEscape q => .quoted q

/-- The backward scan loop of `next_back`, operating on the reversed window
(the Rust code iterates `char_indices().rev()`).  On a comma in `Default`
state it returns the characters walked so far (the token, reversed) and the
unprocessed part (the new window, reversed). -/
def scanBack : State → List Char → Option (List Char × List Char)
  | _, [] => none
  | st, c :: rest =>
    if st = .default ∧ c = ',' then some ([], rest)
    else (scanBack (stepB st c rest.head?) rest).map fun tr => (c :: tr.1, tr.2)

/-- Rust `DoubleEndedIterator::next_back` on the remaining window. -/
def nextBack (s : List Char) : Option (List Char × List Char) :=
  if s = [] then none
  else
    match scanBack .default s.reverse with
    | some tr => some (tr.1.reverse, tr.2.reverse)
    | none => some (s, [])

/-- Fuel-indexed iteration of `next`: the fuel is only a structural-recursion
device, any fuel larger than the window length gives the same answer. -/
def tokensAux : Nat → List Char → List (List Char)
  | 0, _ => []
  | n + 1, s =>
    match next s with
    | none => []
    | some (t, r) => t :: tokensAux n r

/-- All tokens produced by calling `next` repeatedly until it yields `none`
(Rust `iterator.collect()`). -/
def tokens (s : List Char) : List (List Char) :=
  tokensAux (s.length + 1) s

/-- Fuel-indexed iteration of `nextBack`. -/
def tokensBackAux : Nat → List Char → List (List Char)
  | 0, _ => []
  | n + 1, s =>
    match nextBack s with
    | none => []
    | some (t, r) => t :: tokensBackAux n r

/-- All tokens produced by calling `next_back` repeatedly until it yields
`none` (Rust `iterator.rev().collect()`). -/
def tokensBack (s : List Char) : List (List Char) :=
  tokensBackAux (s.length + 1) s

/-- Idealized forward tokenization: like `tokens` but without the
empty-window shortcut of `next`, so an empty window still counts as one
empty final token.  Used to analyse where `tokens` drops a token. -/
def itokensAux : Nat → List Char → List (List Char)
  | 0, s => [s]
  | n + 1, s =>
    match scanF .default s with
    | none => [s]
    | some (t, r) => t :: itokensAux n r

/-- Idealized forward token list (splits at every structural comma). -/
def itokens (s : List Char) : List (List Char) :=
  itokensAux (s.length + 1) s

/-- Idealized backward tokenization, mirror of `itokens`. -/
def itokensBackAux : Nat → List Char → List (List Char)
  | 0, s => [s]
  | n + 1, s =>
    match scanBack .default s.reverse with
    | none => [s]
    | some (t, r) => t.reverse :: itokensBackAux n r.reverse

/-- Idealized backward token list. -/
def itokensBack (s : List Char) : List (List Char) :=
  itokensBackAux (s.length + 1) s

/-- Direction of one iterator call. -/
inductive Dir
  | fwd
  | bwd
  deriving DecidableEq, Repr

/-- Run a sequence of interleaved `next` / `nextBack` calls on a window.
Returns the tokens collected from the front (left-to-right), the tokens
collected from the back (left-to-right), and the final window. -/
def runDirs : List Dir → List Char → List (List Char) × List (List Char) × List Char
  | [], s => ([], [], s)
  | .fwd :: ds, s =>
    match next s with
    | none => runDirs ds s
    | some (t, r) =>
      let p := runDirs ds r
      (t :: p.1, p.2.1, p.2.2)
  | .bwd :: ds, s =>
    match nextBack s with
    | none => runDirs ds s
    | some (t, r) =>
      let p := runDirs ds r
      (p.1, p.2.1 ++ [t], p.2.2)

/-- Windows reachable from an initial window by any sequence of `next` and
`nextBack` calls. -/
inductive WindowReach : List Char → List Char → Prop
  | refl (s : List Char) : WindowReach s s
  | stepFwd {s₀ s t r : List Char} : WindowReach s₀ s →
      next s = some (t, r) → WindowReach s₀ r
  | stepBwd {s₀ s t r : List Char} : WindowReach s₀ s →
      nextBack s = some (t, r) → WindowReach s₀ r

/-- Modelled from the spec: "joining all forward-yielded tokens with `,`". -/
def joinComma : List (List Char) → List Char
  | [] => []
  | [t] => t
  | t :: ts => t ++ ',' :: joinComma ts

/-- Modelled from the spec: "naively splitting the string on every comma,
with no trimming" — every comma is a delimiter, `n` commas give `n + 1`
pieces. -/
def naiveSplit : List Char → List (List Char)
  | [] => [[]]
  | c :: rest =>
    if c = ',' then [] :: naiveSplit rest
    else (naiveSplit rest).modifyHead fun t => c :: t

/-- All backslashes of the input occur inside quoted spans: the forward state
machine never reads a backslash while in `Default` state. -/
def noStray : State → List Char → Bool
  | _, [] => true
  | st, c :: rest =>
    if st = .default ∧ c = '\\' then false
    else noStray (stepF st c) rest

/-- States visited by the backward scan (instrumentation of `scanBack`,
with the same transitions and stopping rule). -/
def scanBackStates : State → List Char → Option Char → List State
  | st, [], _ => [st]
  | st, c :: rest, p =>
    if st = .default ∧ c = ',' then [st]
    else st :: scanBackStates (stepB st c (peek rest p)) rest p

/-- Generalization of `scanBack` that also carries the character `p`
immediately to the left of the processed part, so that sub-runs of a larger
backward scan peek correctly at their left end; `scanBack` is the case
`p = none`. -/
def scanBP : State → List Char → Option Char → Option (List Char × List Char)
  | _, [], _ => none
  | st, c :: rest, p =>
    if st = .default ∧ c = ',' then some ([], rest)
    else (scanBP (stepB st c (peek rest p)) rest p).map fun tr => (c :: tr.1, tr.2)

/-- Backward fold of the state machine with left-context peek `p`. -/
def runStateB : State → List Char → Option Char → State
  | st, [], _ => st
  | st, c :: rest, p => runStateB (stepB st c (peek rest p)) rest p

/-- Collapse `QuotedEscape(kind)` to `Quoted(kind)`: the backward scan does
not use the escape state, its `Quoted` state covers both. -/
def collapse : State → State
  | .default => .default
  | .quoted q => .quoted q
  | .quotedEscape q => .quoted q

/-! Basic lemmas about the forward scan. -/

theorem scanF_eq_none (st : State) : scanF st [] = none := rfl

theorem scanF_cons (st : State) (c : Char) (rest : List Char) :
    scanF st (c :: rest) =
      if st = .default ∧ c = ',' then some ([], rest)
      else (scanF (stepF st c) rest).map fun tr => (c :: tr.1, tr.2) := rfl

theorem runState_nil (st : State) : runState st [] = st := rfl

theorem runState_cons (st : State) (c : Char) (l : List Char) :
    runState st (c :: l) = runState (stepF st c) l := rfl

theorem runState_append (st : State) (l₁ l₂ : List Char) :
    runState st (l₁ ++ l₂) = runState (runState st l₁) l₂ := by
  simp [runState, List.foldl_append]

theorem runState_concat (st : State) (l : List Char) (c : Char) :
    runState st (l ++ [c]) = stepF (runState st l) c := by
  rw [runState_append]; rfl

/-- Decomposition: a successful forward scan found the first `Default`-state
comma; the input is token ++ comma ++ rest, the token's walk found no
earlier delimiter and ends in `Default` state at the comma. -/
theorem scanF_some_decomp {st : State} {u t r : List Char}
    (h : scanF st u = some (t, r)) :
    u = t ++ ',' :: r ∧ scanF st t = none ∧ runState st t = .default := by
  induction u generalizing st t with
  | nil => simp [scanF] at h
  | cons c rest ih =>
    rw [scanF_cons] at h
    by_cases hc : st = .default ∧ c = ','
    · rw [if_pos hc] at h
      obtain ⟨ht, hr⟩ : ([] : List Char) = t ∧ rest = r := by
        simpa using h
      subst ht; subst hr
      exact ⟨by simp [hc.2], rfl, hc.1⟩
    · rw [if_neg hc] at h
      obtain ⟨⟨t', r'⟩, hsc, htr⟩ := Option.map_eq_some'.mp h
      obtain ⟨ht, hr⟩ : c :: t' = t ∧ r' = r := by simpa using htr
      subst ht; subst hr
      obtain ⟨h1, h2, h3⟩ := ih hsc
      refine ⟨by simp [h1], ?_, ?_⟩
      · rw [scanF_cons, if_neg hc, h2]; rfl
      · rw [runState_cons]; exact h3

/-- Extending the input to the right of a found delimiter does not change
the token; the extension lands in the rest. -/
theorem scanF_some_append {st : State} {u t r : List Char}
    (h : scanF st u = some (t, r)) (w : List Char) :
    scanF st (u ++ w) = some (t, r ++ w) := by
  induction u generalizing st t with
  | nil => simp [scanF] at h
  | cons c rest ih =>
    rw [scanF_cons] at h
    by_cases hc : st = .default ∧ c = ','
    · rw [if_pos hc] at h
      obtain ⟨ht, hr⟩ : ([] : List Char) = t ∧ rest = r := by simpa using h
      subst ht; subst hr
      rw [List.cons_append, scanF_cons, if_pos hc]
    · rw [if_neg hc] at h
      obtain ⟨⟨t', r'⟩, hsc, htr⟩ := Option.map_eq_some'.mp h
      obtain ⟨ht, hr⟩ : c :: t' = t ∧ r' = r := by simpa using htr
      subst ht; subst hr
      rw [List.cons_append, scanF_cons, if_neg hc, ih hsc]
      rfl

/-- A walk that found no delimiter and ends in `Default` state splits at an
appended comma. -/
theorem scanF_none_append_comma {st : State} {u : List Char}
    (h1 : scanF st u = none) (h2 : runState st u = .default) (v : List Char) :
    scanF st (u ++ ',' :: v) = some (u, v) := by
  induction u generalizing st with
  | nil =>
    rw [runState_nil] at h2
    simp [scanF, h2]
  | cons c rest ih =>
    rw [scanF_cons] at h1
    by_cases hc : st = .default ∧ c = ','
    · rw [if_pos hc] at h1; exact absurd h1 (by simp)
    · rw [if_neg hc] at h1
      rw [List.cons_append, scanF_cons, if_neg hc,
        ih (by simpa using h1) (by rw [runState_cons] at h2; exact h2)]
      rfl

/-- If the walk of a block ends in `Default` state then a comma appended
after the block is found (there or earlier): the scan cannot miss it. -/
theorem scanF_append_comma_ne_none {st : State} {u : List Char}
    (h : runState st u = .default) (v : List Char) :
    scanF st (u ++ ',' :: v) ≠ none := by
  cases hsc : scanF st u with
  | none => rw [scanF_none_append_comma hsc h v]; simp
  | some tr => rw [scanF_some_append hsc (',' :: v)]; simp

theorem scanF_some_length {st : State} {u t r : List Char}
    (h : scanF st u = some (t, r)) : r.length < u.length := by
  obtain ⟨h1, -, -⟩ := scanF_some_decomp h
  subst h1; simp; omega

theorem next_none_iff {s : List Char} : next s = none ↔ s = [] := by
  constructor
  · intro h
    by_contra hne
    rw [next, if_neg hne] at h
    cases hsc : scanF .default s with
    | none => rw [hsc] at h; simp at h
    | some tr => rw [hsc] at h; simp at h
  · intro h; subst h; rfl

theorem next_some_length {s t r : List Char} (h : next s = some (t, r)) :
    r.length < s.length := by
  by_cases hs : s = []
  · subst hs; simp [next] at h
  · rw [next, if_neg hs] at h
    cases hsc : scanF .default s with
    | none =>
      rw [hsc] at h
      obtain ⟨-, hr⟩ : s = t ∧ ([] : List Char) = r := by simpa using h
      subst hr
      simpa using List.length_pos.mpr hs
    | some tr =>
      rw [hsc] at h
      obtain ⟨rfl⟩ : tr = (t, r) := by simpa using h
      exact scanF_some_length hsc

/-! Unfolding equations for the fuel-based iteration: any fuel above the
window length computes the same list, giving the natural recursions. -/

theorem tokensAux_congr {n m : Nat} {s : List Char} (hn : s.length < n)
    (hm : s.length < m) : tokensAux n s = tokensAux m s := by
  induction n generalizing s m with
  | zero => omega
  | succ n ih =>
    cases m with
    | zero => omega
    | succ m =>
      show tokensAux (n + 1) s = tokensAux (m + 1) s
      rw [tokensAux, tokensAux]
      cases hx : next s with
      | none => rfl
      | some tr =>
        obtain ⟨t, r⟩ := tr
        have hlt := next_some_length hx
        exact congrArg (t :: ·) (ih (by omega) (by omega))

theorem tokens_eq (s : List Char) :
    tokens s =
      match next s with
      | none => []
      | some (t, r) => t :: tokens r := by
  rw [tokens, tokensAux]
  cases hx : next s with
  | none => rfl
  | some tr =>
    have hlt := next_some_length hx
    exact congrArg (tr.1 :: ·) (tokensAux_congr (by omega) (by omega))

theorem itokensAux_shrink {s t r : List Char}
    (h : scanF .default s = some (t, r)) : r.length < s.length :=
  scanF_some_length h

theorem itokensAux_congr {n m : Nat} {s : List Char} (hn : s.length < n)
    (hm : s.length < m) : itokensAux n s = itokensAux m s := by
  induction n generalizing s m with
  | zero => omega
  | succ n ih =>
    cases m with
    | zero => omega
    | succ m =>
      show itokensAux (n + 1) s = itokensAux (m + 1) s
      rw [itokensAux, itokensAux]
      cases hx : scanF .default s with
      | none => rfl
      | some tr =>
        obtain ⟨t, r⟩ := tr
        have hlt := itokensAux_shrink hx
        exact congrArg (t :: ·) (ih (by omega) (by omega))

theorem itokens_eq (s : List Char) :
    itokens s =
      match scanF .default s with
      | none => [s]
      | some (t, r) => t :: itokens r := by
  rw [itokens, itokensAux]
  cases hx : scanF .default s with
  | none => rfl
  | some tr =>
    have hlt := itokensAux_shrink (t := tr.1) (r := tr.2) (by simpa using hx)
    exact congrArg (tr.1 :: ·) (itokensAux_congr (by omega) (by omega))

/-! Basic lemmas about the backward scan. -/

theorem peek_nil (p : Option Char) : peek [] p = p := rfl

theorem peek_cons (c : Char) (l : List Char) (p : Option Char) :
    peek (c :: l) p = some c := rfl

theorem peek_append (u v : List Char) (p : Option Char) :
    peek (u ++ v) p = peek u (peek v p) := by
  cases u <;> rfl

/-- The Rust backward loop peeks `rest.head?`, which is `peek rest none`. -/
theorem scanBack_eq_scanBP (st : State) (l : List Char) :
    scanBack st l = scanBP st l none := by
  induction l generalizing st with
  | nil => rfl
  | cons c rest ih =>
    rw [scanBack, scanBP]
    by_cases hc : st = .default ∧ c = ','
    · rw [if_pos hc, if_pos hc]
    · rw [if_neg hc, if_neg hc, ih]
      cases rest <;> rfl

theorem runStateB_nil (st : State) (p : Option Char) :
    runStateB st [] p = st := rfl

theorem runStateB_cons (st : State) (c : Char) (l : List Char)
    (p : Option Char) :
    runStateB st (c :: l) p = runStateB (stepB st c (peek l p)) l p := rfl

theorem runStateB_concat (st : State) (l : List Char) (c : Char)
    (p : Option Char) :
    runStateB st (l ++ [c]) p = stepB (runStateB st l (some c)) c p := by
  induction l generalizing st with
  | nil => rfl
  | cons d l' ih =>
    rw [List.cons_append, runStateB_cons, runStateB_cons,
      peek_append l' [c] p, peek_cons c [] p, ih]

/-- Decomposition of a successful backward scan (over the reversed window):
the first `Default`-state comma was found, the walk before it found no
delimiter and ends there in `Default` state; the character to the left of
that walk is the comma, whence peek context `some ','`. -/
theorem scanBP_some_decomp {st : State} {rl tr rr : List Char}
    {p : Option Char} (h : scanBP st rl p = some (tr, rr)) :
    rl = tr ++ ',' :: rr ∧ scanBP st tr (some ',') = none ∧
      runStateB st tr (some ',') = .default := by
  induction rl generalizing st tr with
  | nil => simp [scanBP] at h
  | cons c rest ih =>
    rw [scanBP] at h
    by_cases hc : st = .default ∧ c = ','
    · rw [if_pos hc] at h
      obtain ⟨ht, hr⟩ : ([] : List Char) = tr ∧ rest = rr := by simpa using h
      subst ht; subst hr
      exact ⟨by simp [hc.2], rfl, hc.1⟩
    · rw [if_neg hc] at h
      obtain ⟨⟨t', r'⟩, hsc, htr⟩ := Option.map_eq_some'.mp h
      obtain ⟨ht, hr⟩ : c :: t' = tr ∧ r' = rr := by simpa using htr
      subst ht; subst hr
      obtain ⟨h1, h2, h3⟩ := ih hsc
      have hpk : peek rest p = peek t' (some ',') := by
        rw [h1, peek_append, peek_cons]
      refine ⟨by simp [h1], ?_, ?_⟩
      · rw [scanBP, if_neg hc, ← hpk, h2]; rfl
      · rw [runStateB_cons, ← hpk]; exact h3

/-- A successful backward scan is insensitive to anything appended after the
found delimiter, and to the outer peek context. -/
theorem scanBP_some_append {st : State} {rl tr rr : List Char}
    {p : Option Char} (h : scanBP st rl p = some (tr, rr))
    (w : List Char) (p' : Option Char) :
    scanBP st (rl ++ w) p' = some (tr, rr ++ w) := by
  induction rl generalizing st tr with
  | nil => simp [scanBP] at h
  | cons c rest ih =>
    rw [scanBP] at h
    by_cases hc : st = .default ∧ c = ','
    · rw [if_pos hc] at h
      obtain ⟨ht, hr⟩ : ([] : List Char) = tr ∧ rest = rr := by simpa using h
      subst ht; subst hr
      rw [List.cons_append, scanBP, if_pos hc]
    · rw [if_neg hc] at h
      obtain ⟨⟨t', r'⟩, hsc, htr⟩ := Option.map_eq_some'.mp h
      obtain ⟨ht, hr⟩ : c :: t' = tr ∧ r' = rr := by simpa using htr
      subst ht; subst hr
      have hrest : rest ≠ [] := by
        rintro rfl; simp [scanBP] at hsc
      obtain ⟨d, rest', rfl⟩ := List.exists_cons_of_ne_nil hrest
      rw [peek_cons] at hsc
      rw [List.cons_append, scanBP, if_neg hc, peek_append, peek_cons,
        ih hsc]
      rfl

/-- A backward walk that found no delimiter and ends in `Default` state
splits at a comma appended after it (then followed by anything). -/
theorem scanBP_none_append_comma {st : State} {x : List Char}
    (h1 : scanBP st x (some ',') = none)
    (h2 : runStateB st x (some ',') = .default) (y : List Char)
    (p : Option Char) :
    scanBP st (x ++ ',' :: y) p = some (x, y) := by
  induction x generalizing st with
  | nil =>
    rw [runStateB_nil] at h2
    simp [scanBP, h2]
  | cons c rest ih =>
    rw [scanBP] at h1
    by_cases hc : st = .default ∧ c = ','
    · rw [if_pos hc] at h1; exact absurd h1 (by simp)
    · rw [if_neg hc] at h1
      have h1' : scanBP (stepB st c (peek rest (some ','))) rest (some ',') = none := by
        simpa using h1
      have h2' : runStateB (stepB st c (peek rest (some ','))) rest (some ',') = .default := by
        rw [runStateB_cons] at h2; exact h2
      rw [List.cons_append, scanBP, if_neg hc, peek_append, peek_cons,
        ih h1' h2']
      rfl

/-- If the backward walk of a block ends in `Default` state then a comma
appended after the block cannot be missed. -/
theorem scanBP_append_comma_ne_none {st : State} {x : List Char}
    (h : runStateB st x (some ',') = .default) (y : List Char)
    (p : Option Char) :
    scanBP st (x ++ ',' :: y) p ≠ none := by
  cases hsc : scanBP st x (some ',') with
  | none => rw [scanBP_none_append_comma hsc h y p]; simp
  | some tr =>
    obtain ⟨a, b⟩ := tr
    rw [scanBP_some_append hsc (',' :: y) p]; simp

theorem scanBack_some_decomp {st : State} {rl tr rr : List Char}
    (h : scanBack st rl = some (tr, rr)) :
    rl = tr ++ ',' :: rr ∧ scanBP st tr (some ',') = none ∧
      runStateB st tr (some ',') = .default := by
  rw [scanBack_eq_scanBP] at h
  exact scanBP_some_decomp h

theorem nextBack_none_iff {s : List Char} : nextBack s = none ↔ s = [] := by
  constructor
  · intro h
    by_contra hne
    rw [nextBack, if_neg hne] at h
    cases hsc : scanBack .default s.reverse with
    | none => rw [hsc] at h; simp at h
    | some tr => rw [hsc] at h; simp at h
  · intro h; subst h; rfl

/-- Decomposition of `nextBack`: either it splits the window at a comma
(token to the right, new window to the left), or it returns the whole
window. -/
theorem nextBack_some_decomp {s t r : List Char}
    (h : nextBack s = some (t, r)) :
    (s = r ++ ',' :: t ∧
      scanBP .default t.reverse (some ',') = none ∧
      runStateB .default t.reverse (some ',') = .default) ∨
    (t = s ∧ r = [] ∧ scanBack .default s.reverse = none) := by
  by_cases hs : s = []
  · subst hs; simp [nextBack] at h
  · rw [nextBack, if_neg hs] at h
    cases hsc : scanBack .default s.reverse with
    | none =>
      rw [hsc] at h
      obtain ⟨ht, hr⟩ : s = t ∧ ([] : List Char) = r := by simpa using h
      exact Or.inr ⟨ht.symm, hr.symm, rfl⟩
    | some tr =>
      obtain ⟨a, b⟩ := tr
      rw [hsc] at h
      obtain ⟨ht, hr⟩ : a.reverse = t ∧ b.reverse = r := by simpa using h
      obtain ⟨h1, h2, h3⟩ := scanBack_some_decomp hsc
      left
      have hs2 : s = b.reverse ++ ',' :: a.reverse := by
        have := congrArg List.reverse h1
        simpa [List.reverse_append] using this
      subst ht; subst hr
      refine ⟨by simpa using hs2, ?_, ?_⟩
      · rw [List.reverse_reverse]; exact h2
      · rw [List.reverse_reverse]; exact h3

theorem nextBack_some_length {s t r : List Char}
    (h : nextBack s = some (t, r)) : r.length < s.length := by
  by_cases hs : s = []
  · subst hs; simp [nextBack] at h
  · rcases nextBack_some_decomp h with ⟨h1, -, -⟩ | ⟨-, h2, -⟩
    · rw [h1]; simp
    · subst h2; simpa using List.length_pos.mpr hs

theorem tokensBackAux_congr {n m : Nat} {s : List Char} (hn : s.length < n)
    (hm : s.length < m) : tokensBackAux n s = tokensBackAux m s := by
  induction n generalizing s m with
  | zero => omega
  | succ n ih =>
    cases m with
    | zero => omega
    | succ m =>
      show tokensBackAux (n + 1) s = tokensBackAux (m + 1) s
      rw [tokensBackAux, tokensBackAux]
      cases hx : nextBack s with
      | none => rfl
      | some tr =>
        obtain ⟨t, r⟩ := tr
        have hlt := nextBack_some_length hx
        exact congrArg (t :: ·) (ih (by omega) (by omega))

theorem tokensBack_eq (s : List Char) :
    tokensBack s =
      match nextBack s with
      | none => []
      | some (t, r) => t :: tokensBack r := by
  rw [tokensBack, tokensBackAux]
  cases hx : nextBack s with
  | none => rfl
  | some tr =>
    obtain ⟨t, r⟩ := tr
    have hlt := nextBack_some_length hx
    exact congrArg (t :: ·) (tokensBackAux_congr (by omega) (by omega))

theorem scanBack_rev_some_length {s : List Char} {tr rr : List Char}
    (h : scanBack .default s.reverse = some (tr, rr)) :
    rr.reverse.length < s.length := by
  obtain ⟨h1, -, -⟩ := scanBack_some_decomp h
  have : s.reverse.length = tr.length + (rr.length + 1) := by rw [h1]; simp
  simp only [List.length_reverse] at this ⊢
  omega

theorem itokensBackAux_congr {n m : Nat} {s : List Char} (hn : s.length < n)
    (hm : s.length < m) : itokensBackAux n s = itokensBackAux m s := by
  induction n generalizing s m with
  | zero => omega
  | succ n ih =>
    cases m with
    | zero => omega
    | succ m =>
      show itokensBackAux (n + 1) s = itokensBackAux (m + 1) s
      rw [itokensBackAux, itokensBackAux]
      cases hx : scanBack .default s.reverse with
      | none => rfl
      | some tr =>
        obtain ⟨t, r⟩ := tr
        have hlt := scanBack_rev_some_length hx
        exact congrArg (t.reverse :: ·) (ih (by omega) (by omega))

theorem itokensBack_eq (s : List Char) :
    itokensBack s =
      match scanBack .default s.reverse with
      | none => [s]
      | some (t, r) => t.reverse :: itokensBack r.reverse := by
  rw [itokensBack, itokensBackAux]
  cases hx : scanBack .default s.reverse with
  | none => rfl
  | some tr =>
    obtain ⟨t, r⟩ := tr
    have hlt := scanBack_rev_some_length hx
    exact congrArg (t.reverse :: ·) (itokensBackAux_congr (by omega) (by omega))

/-! Lemmas about `noStray` and the forward state machine, used to relate the
two scan directions. -/

theorem noStray_append {st : State} {u v : List Char}
    (h : noStray st (u ++ v) = true) :
    noStray st u = true ∧ noStray (runState st u) v = true := by
  induction u generalizing st with
  | nil => exact ⟨rfl, h⟩
  | cons c rest ih =>
    rw [List.cons_append, noStray] at h
    by_cases hc : st = .default ∧ c = '\\'
    · rw [if_pos hc] at h; exact absurd h (by simp)
    · rw [if_neg hc] at h
      obtain ⟨h1, h2⟩ := ih h
      exact ⟨by rw [noStray, if_neg hc]; exact h1, by rwa [runState_cons]⟩

theorem stepF_backslash_eq_default {st : State} :
    stepF st '\\' = .default ↔ st = .default := by
  cases st with
  | default => simp [stepF]
  | quoted q => cases q <;> simp [stepF, quoteChar]
  | quotedEscape q => simp [stepF]

theorem stepF_comma_eq_default {st : State} :
    stepF st ',' = .default ↔ st = .default := by
  cases st with
  | default => simp [stepF]
  | quoted q => cases q <;> simp [stepF, quoteChar]
  | quotedEscape q => simp [stepF]

theorem runState_eq_quotedEscape {a : List Char} {q : Quote}
    (h : runState .default a = .quotedEscape q) :
    a.getLast? = some '\\' := by
  rcases List.eq_nil_or_concat a with rfl | ⟨a', c, rfl⟩
  · rw [runState_nil] at h; exact absurd h (by simp)
  · rw [List.concat_eq_append] at h ⊢
    rw [runState_concat] at h
    have hc : c = '\\' := by
      by_contra hne
      cases hst : runState .default a' with
      | default =>
        rw [hst] at h
        by_cases h1 : c = '"'
        · rw [stepF, if_pos h1] at h; exact absurd h (by simp)
        · by_cases h2 : c = '\''
          · rw [stepF, if_neg h1, if_pos h2] at h; exact absurd h (by simp)
          · rw [stepF, if_neg h1, if_neg h2] at h; exact absurd h (by simp)
      | quoted q' =>
        rw [hst] at h
        by_cases h1 : c = quoteChar q'
        · rw [stepF, if_pos h1] at h; exact absurd h (by simp)
        · rw [stepF, if_neg h1, if_neg hne] at h; exact absurd h (by simp)
      | quotedEscape q' =>
        rw [hst] at h; exact absurd h (by simp [stepF])
    subst hc; simp

/-- No backslash occurs while the forward state machine is in `Default`:
in particular a walked block ending in `Default` state cannot end with a
backslash. -/
theorem noStray_getLast {s a b : List Char}
    (hns : noStray .default s = true) (hsplit : s = a ++ b)
    (ha : runState .default a = .default) : a.getLast? ≠ some '\\' := by
  intro hlast
  rcases List.eq_nil_or_concat a with rfl | ⟨a', c, rfl⟩
  · simp at hlast
  · have hc : c = '\\' := by simpa using hlast
    subst hc
    rw [List.concat_eq_append] at ha hsplit
    rw [runState_concat, stepF_backslash_eq_default] at ha
    subst hsplit
    have h1 := (noStray_append hns).1
    have h2 := (noStray_append h1).2
    rw [ha, noStray] at h2
    simp at h2

/-! The central correspondence: on well-quoted input the backward scan's
state is, at every position, the `collapse` of the forward scan's state. -/

theorem collapse_eq_default {st : State} :
    collapse st = .default ↔ st = .default := by
  cases st <;> simp [collapse]

theorem stepF_default_eval (c : Char) :
    stepF .default c =
      if c = '"' then .quoted .double
      else if c = '\'' then .quoted .single
      else .default := rfl

theorem stepF_quoted_eval (q : Quote) (c : Char) :
    stepF (.quoted q) c =
      if c = quoteChar q then .default
      else if c = '\\' then .quotedEscape q
      else .quoted q := rfl

theorem stepF_escape_eval (q : Quote) (c : Char) :
    stepF (.quotedEscape q) c = .quoted q := rfl

theorem stepB_default_eval (c : Char) (p : Option Char) :
    stepB .default c p =
      if c = '"' then .quoted .double
      else if c = '\'' then .quoted .single
      else .default := rfl

theorem stepB_quoted_eval (q : Quote) (c : Char) (p : Option Char) :
    stepB (.quoted q) c p =
      if c = quoteChar q then
        (if p = some '\\' then .quoted q else .default)
      else .quoted q := by
  cases q <;> rfl

theorem stepB_escape_eval (q : Quote) (c : Char) (p : Option Char) :
    stepB (.quotedEscape q) c p = .quoted q := rfl

/-- One-step correspondence between the two state machines.  If the peek
character is a backslash exactly when the forward machine is in the escape
state (which `noStray` guarantees on well-quoted input), then stepping the
backward machine over a character undoes the forward step, up to
`collapse`. -/
theorem stepB_collapse_stepF (st : State) (c : Char) (p : Option Char)
    (hdef : st = .default → p ≠ some '\\')
    (hesc : ∀ q, st = .quotedEscape q → p = some '\\') :
    stepB (collapse (stepF st c)) c p = collapse st := by
  cases st with
  | default =>
    have hp : p ≠ some '\\' := hdef rfl
    by_cases h1 : c = '"'
    · subst h1
      rw [stepF_default_eval, if_pos rfl,
        show collapse (State.quoted .double) = State.quoted .double from rfl,
        stepB_quoted_eval,
        if_pos (show ('"' : Char) = quoteChar .double from rfl), if_neg hp]
      rfl
    · by_cases h2 : c = '\''
      · subst h2
        rw [stepF_default_eval, if_neg h1, if_pos rfl,
          show collapse (State.quoted .single) = State.quoted .single from rfl,
          stepB_quoted_eval,
          if_pos (show ('\'' : Char) = quoteChar .single from rfl), if_neg hp]
        rfl
      · rw [stepF_default_eval, if_neg h1, if_neg h2,
          show collapse State.default = State.default from rfl,
          stepB_default_eval, if_neg h1, if_neg h2]
  | quoted q =>
    by_cases h1 : c = quoteChar q
    · subst h1
      rw [stepF_quoted_eval, if_pos rfl,
        show collapse State.default = State.default from rfl,
        stepB_default_eval]
      cases q with
      | single =>
        rw [show quoteChar Quote.single = '\'' from rfl,
          if_neg (by decide), if_pos rfl]
        rfl
      | double =>
        rw [show quoteChar Quote.double = '"' from rfl, if_pos rfl]
        rfl
    · by_cases h2 : c = '\\'
      · subst h2
        rw [stepF_quoted_eval, if_neg h1, if_pos rfl,
          show collapse (State.quotedEscape q) = State.quoted q from rfl,
          show collapse (State.quoted q) = State.quoted q from rfl,
          stepB_quoted_eval, if_neg h1]
      · rw [stepF_quoted_eval, if_neg h1, if_neg h2,
          show collapse (State.quoted q) = State.quoted q from rfl,
          stepB_quoted_eval, if_neg h1]
  | quotedEscape q =>
    have hp := hesc q rfl
    subst hp
    rw [stepF_escape_eval,
      show collapse (State.quoted q) = State.quoted q from rfl,
      show collapse (State.quotedEscape q) = State.quoted q from rfl,
      stepB_quoted_eval]
    by_cases h1 : c = quoteChar q
    · rw [if_pos h1, if_pos rfl]
    · rw [if_neg h1]

/-- Main invariant: on well-quoted input (`noStray` and the forward walk of
the whole input ends in `Default`), after the backward scan has processed
the suffix `b` of `s = a ++ b` its state is the collapse of the forward
state after the prefix `a`.  In particular the two directions agree on
which commas are structural. -/
theorem runStateB_eq_collapse {s : List Char}
    (hns : noStray .default s = true)
    (hend : runState .default s = .default) :
    ∀ b a, s = a ++ b →
      runStateB .default b.reverse a.getLast? = collapse (runState .default a) := by
  intro b
  induction b with
  | nil =>
    intro a hsplit
    rw [List.append_nil] at hsplit
    subst hsplit
    rw [hend]
    rfl
  | cons c b' ih =>
    intro a hsplit
    have hsplit' : s = (a ++ [c]) ++ b' := by
      rw [hsplit]; simp
    have ihc := ih (a ++ [c]) hsplit'
    rw [List.getLast?_concat] at ihc
    rw [List.reverse_cons, runStateB_concat, ihc, runState_concat]
    apply stepB_collapse_stepF
    · intro hdef
      exact noStray_getLast hns hsplit hdef
    · intro q hq
      exact runState_eq_quotedEscape hq

/-! Case-specific unfolding helpers for the iterated token lists. -/

theorem tokens_of_none {s : List Char} (h : next s = none) : tokens s = [] := by
  rw [tokens_eq, h]

theorem tokens_of_some {s t r : List Char} (h : next s = some (t, r)) :
    tokens s = t :: tokens r := by
  rw [tokens_eq, h]

theorem tokensBack_of_none {s : List Char} (h : nextBack s = none) :
    tokensBack s = [] := by
  rw [tokensBack_eq, h]

theorem tokensBack_of_some {s t r : List Char} (h : nextBack s = some (t, r)) :
    tokensBack s = t :: tokensBack r := by
  rw [tokensBack_eq, h]

theorem itokens_of_none {s : List Char} (h : scanF .default s = none) :
    itokens s = [s] := by
  rw [itokens_eq, h]

theorem itokens_of_some {s t r : List Char}
    (h : scanF .default s = some (t, r)) : itokens s = t :: itokens r := by
  rw [itokens_eq, h]

theorem itokensBack_of_none {s : List Char}
    (h : scanBack .default s.reverse = none) : itokensBack s = [s] := by
  rw [itokensBack_eq, h]

theorem itokensBack_of_some {s tr rr : List Char}
    (h : scanBack .default s.reverse = some (tr, rr)) :
    itokensBack s = tr.reverse :: itokensBack rr.reverse := by
  rw [itokensBack_eq, h]

/-! Consequences of the invariant: on well-quoted input the two directions
agree on the structural commas. -/

/-- On well-quoted input, if the backward scan finds no delimiter then
neither does the forward scan. -/
theorem scanBack_none_imp_scanF_none {s : List Char}
    (hns : noStray .default s = true)
    (hend : runState .default s = .default)
    (h : scanBack .default s.reverse = none) :
    scanF .default s = none := by
  cases hsc : scanF .default s with
  | none => rfl
  | some tr =>
    obtain ⟨u1, u2⟩ := tr
    obtain ⟨h1, -, h3⟩ := scanF_some_decomp hsc
    have hsplit : s = (u1 ++ [',']) ++ u2 := by rw [h1]; simp
    have hinv := runStateB_eq_collapse hns hend u2 (u1 ++ [',']) hsplit
    rw [List.getLast?_concat] at hinv
    have hrun : runState .default (u1 ++ [',']) = .default := by
      rw [runState_concat, h3]; rfl
    rw [hrun] at hinv
    have hrev : s.reverse = u2.reverse ++ ',' :: u1.reverse := by
      rw [hsplit]; simp
    rw [scanBack_eq_scanBP, hrev] at h
    exact absurd h
      (scanBP_append_comma_ne_none (by rw [hinv]; rfl) u1.reverse none)

/-- On well-quoted input, a successful backward scan splits the window at a
comma that the forward scan also treats as structural: the part left of the
comma ends its forward walk in `Default`, and the part right of the comma
contains no forward delimiter. -/
theorem scanBack_some_fwd_facts {s tr rr : List Char}
    (hns : noStray .default s = true)
    (hend : runState .default s = .default)
    (h : scanBack .default s.reverse = some (tr, rr)) :
    s = rr.reverse ++ ',' :: tr.reverse ∧
      runState .default rr.reverse = .default ∧
      scanF .default tr.reverse = none := by
  obtain ⟨h1, h2, h3⟩ := scanBack_some_decomp h
  set r := rr.reverse with hr
  set t := tr.reverse with ht
  have hsplit : s = r ++ ',' :: t := by
    have := congrArg List.reverse h1
    simpa [List.reverse_append] using this
  have htrev : t.reverse = tr := by rw [ht, List.reverse_reverse]
  -- the forward walk of `r` ends in Default
  have hinv := runStateB_eq_collapse hns hend t (r ++ [','])
    (by rw [hsplit]; simp)
  rw [List.getLast?_concat, htrev] at hinv
  have hrdef : runState .default r = .default := by
    have h4 : collapse (runState .default (r ++ [','])) = .default := by
      rw [← hinv, h3]
    rw [collapse_eq_default, runState_concat, stepF_comma_eq_default] at h4
    exact h4
  refine ⟨hsplit, hrdef, ?_⟩
  -- the forward scan finds no delimiter inside `t`
  cases hsc : scanF .default t with
  | none => rfl
  | some vr =>
    obtain ⟨v1, v2⟩ := vr
    obtain ⟨hv1, -, hv3⟩ := scanF_some_decomp hsc
    have hsplit2 : s = (r ++ ',' :: v1 ++ [',']) ++ v2 := by
      rw [hsplit, hv1]; simp
    have hinv2 := runStateB_eq_collapse hns hend v2 (r ++ ',' :: v1 ++ [','])
      hsplit2
    rw [List.getLast?_concat] at hinv2
    have hrun2 : runState .default (r ++ ',' :: v1 ++ [',']) = .default := by
      rw [runState_concat]
      have : runState .default (r ++ ',' :: v1) = .default := by
        rw [runState_append, hrdef, runState_cons,
          show stepF State.default ',' = State.default from rfl, hv3]
      rw [this]; rfl
    rw [hrun2] at hinv2
    have htr2 : tr = v2.reverse ++ ',' :: v1.reverse := by
      rw [← htrev, hv1]; simp
    rw [htr2] at h2
    exact absurd h2
      (scanBP_append_comma_ne_none (by rw [hinv2]; rfl) v1.reverse (some ','))

/-- Appending `,v` after a block whose walk ends in `Default`, where `v`
contains no delimiter, appends exactly one ideal token. -/
theorem itokens_append_comma {u v : List Char}
    (hu : runState .default u = .default)
    (hv : scanF .default v = none) :
    itokens (u ++ ',' :: v) = itokens u ++ [v] := by
  have hgen : ∀ n u, u.length ≤ n → runState .default u = .default →
      itokens (u ++ ',' :: v) = itokens u ++ [v] := by
    intro n
    induction n with
    | zero =>
      intro u hn hu'
      have : u = [] := List.length_eq_zero.mp (Nat.le_zero.mp hn)
      subst this
      rw [List.nil_append,
        itokens_of_some (show scanF State.default (',' :: v) = some ([], v) by
          rw [scanF_cons, if_pos ⟨rfl, rfl⟩]),
        itokens_of_none hv, itokens_of_none (scanF_eq_none .default)]
      rfl
    | succ n ih =>
      intro u hn hu'
      cases hsc : scanF .default u with
      | none =>
        rw [itokens_of_some (scanF_none_append_comma hsc hu' v),
          itokens_of_none hv, itokens_of_none hsc]
        rfl
      | some tr =>
        obtain ⟨u1, u2⟩ := tr
        obtain ⟨h1, -, h3⟩ := scanF_some_decomp hsc
        have hu2 : runState .default u2 = .default := by
          have : runState .default u = runState .default u2 := by
            rw [h1, show u1 ++ ',' :: u2 = (u1 ++ [',']) ++ u2 by simp,
              runState_append, runState_concat, h3]
            rfl
          rw [← this, hu']
        have hlen : u2.length ≤ n := by
          have := scanF_some_length hsc
          omega
        have hsc2 : scanF .default (u ++ ',' :: v) = some (u1, u2 ++ ',' :: v) := by
          have := scanF_some_append hsc (',' :: v)
          simpa using this
        rw [itokens_of_some hsc2, itokens_of_some hsc, ih u2 hlen hu2]
        rfl
  exact hgen u.length u le_rfl hu

/-- Reverse equivalence at the ideal level: on well-quoted input the
backward tokenization is the reverse of the forward tokenization. -/
theorem itokensBack_eq_reverse {s : List Char}
    (hns : noStray .default s = true)
    (hend : runState .default s = .default) :
    itokensBack s = (itokens s).reverse := by
  have hgen : ∀ n s, s.length ≤ n → noStray .default s = true →
      runState .default s = .default → itokensBack s = (itokens s).reverse := by
    intro n
    induction n with
    | zero =>
      intro s hn hns' hend'
      have : s = [] := List.length_eq_zero.mp (Nat.le_zero.mp hn)
      subst this
      rfl
    | succ n ih =>
      intro s hn hns' hend'
      cases hsc : scanBack .default s.reverse with
      | none =>
        rw [itokensBack_of_none hsc,
          itokens_of_none (scanBack_none_imp_scanF_none hns' hend' hsc)]
        rfl
      | some tr2 =>
        obtain ⟨tr, rr⟩ := tr2
        obtain ⟨hsplit, hrdef, htnone⟩ :=
          scanBack_some_fwd_facts hns' hend' hsc
        set r := rr.reverse with hrdefn
        set t := tr.reverse with htdefn
        have hnsr : noStray .default r = true := by
          have : noStray .default (r ++ ',' :: t) = true := by
            rw [← hsplit]; exact hns'
          exact (noStray_append this).1
        have hlen : r.length ≤ n := by
          have : s.length = r.length + (t.length + 1) := by rw [hsplit]; simp
          omega
        rw [itokensBack_of_some hsc, ← hrdefn, ← htdefn,
          show itokens s = itokens r ++ [t] by
            rw [hsplit]; exact itokens_append_comma hrdef htnone,
          ih r hlen hnsr hrdef]
        simp
  exact hgen s.length s le_rfl hns hend

/-! Bridges between the real (`tokens`, `tokensBack`) and idealized
(`itokens`, `itokensBack`) token lists.  They agree unless the relevant end
of the window carries a structural comma, whose ideal empty token the
iterator drops. -/

theorem next_of_scanF_some {s t r : List Char} (hs : s ≠ [])
    (h : scanF .default s = some (t, r)) : next s = some (t, r) := by
  rw [next, if_neg hs, h]

theorem next_of_scanF_none {s : List Char} (hs : s ≠ [])
    (h : scanF .default s = none) : next s = some (s, []) := by
  rw [next, if_neg hs, h]

theorem nextBack_of_scanBack_some {s tr rr : List Char} (hs : s ≠ [])
    (h : scanBack .default s.reverse = some (tr, rr)) :
    nextBack s = some (tr.reverse, rr.reverse) := by
  rw [nextBack, if_neg hs, h]

theorem nextBack_of_scanBack_none {s : List Char} (hs : s ≠ [])
    (h : scanBack .default s.reverse = none) : nextBack s = some (s, []) := by
  rw [nextBack, if_neg hs, h]

theorem tokens_eq_itokens_of_getLast {s : List Char} (hs : s ≠ [])
    (hl : s.getLast? ≠ some ',') : tokens s = itokens s := by
  have hgen : ∀ n s, s.length ≤ n → s ≠ [] → s.getLast? ≠ some ',' →
      tokens s = itokens s := by
    intro n
    induction n with
    | zero =>
      intro s hn hs' _
      exact absurd (List.length_eq_zero.mp (Nat.le_zero.mp hn)) hs'
    | succ n ih =>
      intro s hn hs' hl'
      cases hsc : scanF .default s with
      | none =>
        rw [tokens_of_some (next_of_scanF_none hs' hsc),
          tokens_of_none (next_none_iff.mpr rfl), itokens_of_none hsc]
      | some tr =>
        obtain ⟨t, r⟩ := tr
        obtain ⟨h1, -, -⟩ := scanF_some_decomp hsc
        have hr : r ≠ [] := by
          rintro rfl
          apply hl'
          rw [h1, List.getLast?_append_cons]
          rfl
        have hrl : r.getLast? = s.getLast? := by
          rw [h1, show t ++ ',' :: r = (t ++ [',']) ++ r by simp,
            List.getLast?_append_of_ne_nil _ hr]
        have hlen : r.length ≤ n := by
          have := scanF_some_length hsc
          omega
        rw [tokens_of_some (next_of_scanF_some hs' hsc), itokens_of_some hsc,
          ih r hlen hr (by rw [hrl]; exact hl')]
  exact hgen s.length s le_rfl hs hl

theorem tokensBack_eq_itokensBack_of_head {s : List Char} (hs : s ≠ [])
    (hl : s.head? ≠ some ',') : tokensBack s = itokensBack s := by
  have hgen : ∀ n s, s.length ≤ n → s ≠ [] → s.head? ≠ some ',' →
      tokensBack s = itokensBack s := by
    intro n
    induction n with
    | zero =>
      intro s hn hs' _
      exact absurd (List.length_eq_zero.mp (Nat.le_zero.mp hn)) hs'
    | succ n ih =>
      intro s hn hs' hl'
      cases hsc : scanBack .default s.reverse with
      | none =>
        rw [tokensBack_of_some (nextBack_of_scanBack_none hs' hsc),
          tokensBack_of_none (nextBack_none_iff.mpr rfl),
          itokensBack_of_none hsc]
      | some tr2 =>
        obtain ⟨tr, rr⟩ := tr2
        obtain ⟨h1, -, -⟩ := scanBack_some_decomp hsc
        have hsplit : s = rr.reverse ++ ',' :: tr.reverse := by
          have := congrArg List.reverse h1
          simpa [List.reverse_append] using this
        have hr : rr.reverse ≠ [] := by
          rintro hnil
          apply hl'
          rw [hsplit, hnil]
          rfl
        have hrl : rr.reverse.head? = s.head? := by
          rw [hsplit, List.head?_append_of_ne_nil _ hr]
        have hlen : rr.reverse.length ≤ n := by
          have := scanBack_rev_some_length hsc
          omega
        rw [tokensBack_of_some (nextBack_of_scanBack_some hs' hsc),
          itokensBack_of_some hsc,
          ih rr.reverse hlen hr (by rw [hrl]; exact hl')]
  exact hgen s.length s le_rfl hs hl

theorem tokens_eq_itokens_of_no_empty {s : List Char}
    (h : [] ∉ itokens s) : tokens s = itokens s := by
  have hgen : ∀ n s, s.length ≤ n → ([] : List Char) ∉ itokens s →
      tokens s = itokens s := by
    intro n
    induction n with
    | zero =>
      intro s hn hne
      have : s = [] := List.length_eq_zero.mp (Nat.le_zero.mp hn)
      subst this
      exact absurd (by rw [itokens_of_none (scanF_eq_none .default)]; simp) hne
    | succ n ih =>
      intro s hn hne
      have hs : s ≠ [] := by
        rintro rfl
        exact hne (by rw [itokens_of_none (scanF_eq_none .default)]; simp)
      cases hsc : scanF .default s with
      | none =>
        rw [tokens_of_some (next_of_scanF_none hs hsc),
          tokens_of_none (next_none_iff.mpr rfl), itokens_of_none hsc]
      | some tr =>
        obtain ⟨t, r⟩ := tr
        have hlen : r.length ≤ n := by
          have := scanF_some_length hsc
          omega
        have hner : ([] : List Char) ∉ itokens r := by
          intro hmem
          exact hne (by rw [itokens_of_some hsc]; exact List.mem_cons_of_mem _ hmem)
        rw [tokens_of_some (next_of_scanF_some hs hsc), itokens_of_some hsc,
          ih r hlen hner]
  exact hgen s.length s le_rfl h

/-! Interleaved consumption. -/

theorem runDirs_nil_window (ds : List Dir) : runDirs ds [] = ([], [], []) := by
  induction ds with
  | nil => rfl
  | cons d ds ih =>
    cases d
    · rw [runDirs, next_none_iff.mpr rfl, ih]
    · rw [runDirs, nextBack_none_iff.mpr rfl, ih]

theorem runDirs_fwd_some {s t r : List Char} (ds : List Dir)
    (h : next s = some (t, r)) :
    runDirs (.fwd :: ds) s =
      (t :: (runDirs ds r).1, (runDirs ds r).2.1, (runDirs ds r).2.2) := by
  rw [runDirs, h]

theorem runDirs_bwd_some {s t r : List Char} (ds : List Dir)
    (h : nextBack s = some (t, r)) :
    runDirs (.bwd :: ds) s =
      ((runDirs ds r).1, (runDirs ds r).2.1 ++ [t], (runDirs ds r).2.2) := by
  rw [runDirs, h]

/-- On well-quoted input with no empty tokens, any interleaving of forward
and backward calls consumes exactly the forward token sequence: the tokens
taken from the front, then the tokens of the remaining window, then the
tokens taken from the back, in original order, are the forward
tokenization. -/
theorem runDirs_invariant :
    ∀ (ds : List Dir) (s : List Char), noStray .default s = true →
      runState .default s = .default → ([] : List Char) ∉ itokens s →
      (runDirs ds s).1 ++ tokens (runDirs ds s).2.2 ++ (runDirs ds s).2.1 =
        tokens s := by
  intro ds
  induction ds with
  | nil =>
    intro s _ _ _
    show [] ++ tokens s ++ [] = tokens s
    simp
  | cons d ds ih =>
    intro s hns hend hne
    have hs : s ≠ [] := by
      rintro rfl
      exact hne (by rw [itokens_of_none (scanF_eq_none .default)]; simp)
    cases d with
    | fwd =>
      cases hsc : scanF .default s with
      | none =>
        have hnx := next_of_scanF_none hs hsc
        rw [runDirs_fwd_some ds hnx, runDirs_nil_window ds,
          tokens_of_some hnx, tokens_of_none (next_none_iff.mpr rfl)]
        rfl
      | some tr =>
        obtain ⟨t, r⟩ := tr
        have hnx := next_of_scanF_some hs hsc
        obtain ⟨h1, -, h3⟩ := scanF_some_decomp hsc
        have hnsr : noStray .default r = true := by
          have h4 : noStray .default ((t ++ [',']) ++ r) = true := by
            rw [show (t ++ [',']) ++ r = t ++ ',' :: r by simp, ← h1]
            exact hns
          have h5 := (noStray_append h4).2
          rw [runState_concat, h3,
            show stepF State.default ',' = State.default from rfl] at h5
          exact h5
        have hendr : runState .default r = .default := by
          rw [h1, show t ++ ',' :: r = (t ++ [',']) ++ r by simp,
            runState_append, runState_concat, h3,
            show stepF State.default ',' = State.default from rfl] at hend
          exact hend
        have hner : ([] : List Char) ∉ itokens r := by
          intro hmem
          exact hne (by rw [itokens_of_some hsc]; exact List.mem_cons_of_mem _ hmem)
        rw [runDirs_fwd_some ds hnx, tokens_of_some hnx,
          ← ih r hnsr hendr hner]
        rfl
    | bwd =>
      cases hsc : scanBack .default s.reverse with
      | none =>
        have hnx := nextBack_of_scanBack_none hs hsc
        rw [runDirs_bwd_some ds hnx, runDirs_nil_window ds,
          tokens_of_some (next_of_scanF_none hs
            (scanBack_none_imp_scanF_none hns hend hsc)),
          tokens_of_none (next_none_iff.mpr rfl)]
        rfl
      | some tr2 =>
        obtain ⟨tr, rr⟩ := tr2
        have hnx := nextBack_of_scanBack_some hs hsc
        obtain ⟨hsplit, hrdef, htnone⟩ := scanBack_some_fwd_facts hns hend hsc
        set r := rr.reverse with hrdefn
        set t := tr.reverse with htdefn
        have hit : itokens s = itokens r ++ [t] := by
          rw [hsplit]; exact itokens_append_comma hrdef htnone
        have hnsr : noStray .default r = true := by
          have h4 : noStray .default (r ++ ',' :: t) = true := by
            rw [← hsplit]; exact hns
          exact (noStray_append h4).1
        have hner : ([] : List Char) ∉ itokens r := by
          intro hmem
          exact hne (by rw [hit]; exact List.mem_append_left _ hmem)
        have htok : tokens s = tokens r ++ [t] := by
          rw [tokens_eq_itokens_of_no_empty hne, hit,
            tokens_eq_itokens_of_no_empty hner]
        rw [runDirs_bwd_some ds hnx, htok, ← ih r hnsr hrdef hner]
        simp

/-! Auxiliary facts for the round-trip and naive-split claims. -/

theorem joinComma_cons (t : List Char) {ts : List (List Char)}
    (h : ts ≠ []) : joinComma (t :: ts) = t ++ ',' :: joinComma ts := by
  obtain ⟨u, ts', rfl⟩ := List.exists_cons_of_ne_nil h
  rfl

theorem tokens_ne_nil {s : List Char} (hs : s ≠ []) : tokens s ≠ [] := by
  cases hsc : scanF .default s with
  | none => rw [tokens_of_some (next_of_scanF_none hs hsc)]; simp
  | some tr =>
    obtain ⟨t, r⟩ := tr
    rw [tokens_of_some (next_of_scanF_some hs hsc)]; simp

/-- The characters of a quote-free string never move the forward machine
out of `Default`, so it splits at the very next comma. -/
theorem itokens_eq_naiveSplit {s : List Char}
    (h : ∀ c ∈ s, c ≠ '"' ∧ c ≠ '\'') : itokens s = naiveSplit s := by
  induction s with
  | nil => rfl
  | cons c rest ih =>
    have hc := h c (List.mem_cons_self c rest)
    have hrest : ∀ d ∈ rest, d ≠ '"' ∧ d ≠ '\'' := fun d hd =>
      h d (List.mem_cons_of_mem _ hd)
    by_cases hcm : c = ','
    · subst hcm
      rw [itokens_of_some (show scanF .default (',' :: rest) = some ([], rest) by
          rw [scanF_cons, if_pos ⟨rfl, rfl⟩]),
        ih hrest, naiveSplit, if_pos rfl]
    · have hstep : stepF .default c = .default := by
        rw [stepF_default_eval, if_neg hc.1, if_neg hc.2]
      cases hsc : scanF .default rest with
      | none =>
        have hcs : scanF .default (c :: rest) = none := by
          rw [scanF_cons, if_neg (fun hp => hcm hp.2), hstep, hsc]
          rfl
        rw [itokens_of_none hcs, naiveSplit, if_neg hcm, ← ih hrest,
          itokens_of_none hsc]
        rfl
      | some tr =>
        obtain ⟨t, r⟩ := tr
        have hcs : scanF .default (c :: rest) = some (c :: t, r) := by
          rw [scanF_cons, if_neg (fun hp => hcm hp.2), hstep, hsc]
          rfl
        rw [itokens_of_some hcs, naiveSplit, if_neg hcm, ← ih hrest,
          itokens_of_some hsc]
        rfl

/-! # Claim theorems -/

/-- C1 (counterexample): the claim fails as stated.  On input `a,` the
backward tokens are `["", "a"]` while the forward tokens are `["a"]` (the
iterator drops the empty token after the trailing comma only in the forward
direction), so reverse equivalence fails; and on `a,,b` the interleaving
`next(); next_back()` consumes the window completely while yielding only
`"a"` and `"b"`, losing the middle empty token of the forward sequence. -/
theorem c1_counterexample :
    ¬ (tokensBack ['a', ','] = (tokens ['a', ',']).reverse) ∧
    ¬ ((runDirs [Dir.fwd, Dir.bwd] ['a', ',', ',', 'b']).1 ++
        tokens (runDirs [Dir.fwd, Dir.bwd] ['a', ',', ',', 'b']).2.2 ++
        (runDirs [Dir.fwd, Dir.bwd] ['a', ',', ',', 'b']).2.1 =
        tokens ['a', ',', ',', 'b']) := by
  decide

/-- C1 (amended): on well-quoted input (every backslash inside a quoted
span, every quoted span closed), (1) if the window neither starts nor ends
with a structural comma, `next_back()` until exhaustion yields exactly the
reverse of the `next()` sequence; and (2) if moreover no token is empty,
every interleaving of `next()` / `next_back()` calls yields the tokens of
the forward sequence: front-tokens, remaining-window tokens, and
back-tokens concatenate, in original order, to the forward tokenization. -/
theorem c1_bidirectional_agreement (s : List Char)
    (hns : noStray .default s = true)
    (hend : runState .default s = .default) :
    (s.head? ≠ some ',' → s.getLast? ≠ some ',' →
      tokensBack s = (tokens s).reverse) ∧
    (([] : List Char) ∉ itokens s → ∀ ds : List Dir,
      (runDirs ds s).1 ++ tokens (runDirs ds s).2.2 ++ (runDirs ds s).2.1 =
        tokens s) := by
  constructor
  · intro hh hl
    by_cases hs : s = []
    · subst hs; rfl
    · rw [tokensBack_eq_itokensBack_of_head hs hh,
        itokensBack_eq_reverse hns hend,
        tokens_eq_itokens_of_getLast hs hl]
  · intro hne ds
    exact runDirs_invariant ds s hns hend hne

theorem c1_witness :
    tokensBack ['a', ',', '\'', 'b', ',', 'c', '\''] =
      (tokens ['a', ',', '\'', 'b', ',', 'c', '\'']).reverse ∧
    (runDirs [Dir.fwd, Dir.bwd] ['a', ',', '\'', 'b', ',', 'c', '\'']).1 ++
      tokens (runDirs [Dir.fwd, Dir.bwd] ['a', ',', '\'', 'b', ',', 'c', '\'']).2.2 ++
      (runDirs [Dir.fwd, Dir.bwd] ['a', ',', '\'', 'b', ',', 'c', '\'']).2.1 =
      tokens ['a', ',', '\'', 'b', ',', 'c', '\''] :=
  ⟨(c1_bidirectional_agreement ['a', ',', '\'', 'b', ',', 'c', '\'']
      (by decide) (by decide)).1 (by decide) (by decide),
    (c1_bidirectional_agreement ['a', ',', '\'', 'b', ',', 'c', '\'']
      (by decide) (by decide)).2 (by decide) [Dir.fwd, Dir.bwd]⟩

/-- C2 (counterexample): joining the forward tokens of `a,` with a comma
gives `a`, not the original input — the trailing empty token is dropped, so
its separator comma is lost. -/
theorem c2_counterexample : joinComma (tokens ['a', ',']) ≠ ['a', ','] := by
  decide

/-- C2 (amended): joining all forward-yielded tokens with `,` reproduces the
original input exactly, unless the input ends with a structural comma — a
final comma that the forward walk reaches in `Default` state — in which
case the reproduction is the input minus exactly that final comma (its
trailing empty token is dropped). -/
theorem c2_roundtrip (s : List Char) :
    (¬ (s.getLast? = some ',' ∧ runState .default s.dropLast = .default) →
      joinComma (tokens s) = s) ∧
    (s.getLast? = some ',' ∧ runState .default s.dropLast = .default →
      joinComma (tokens s) ++ [','] = s) := by
  have hgen : ∀ n s, s.length ≤ n →
      (¬ (s.getLast? = some ',' ∧ runState .default s.dropLast = .default) →
        joinComma (tokens s) = s) ∧
      (s.getLast? = some ',' ∧ runState .default s.dropLast = .default →
        joinComma (tokens s) ++ [','] = s) := by
    intro n
    induction n with
    | zero =>
      intro s hn
      have : s = [] := List.length_eq_zero.mp (Nat.le_zero.mp hn)
      subst this
      exact ⟨fun _ => rfl, fun hS => by simp at hS⟩
    | succ n ih =>
      intro s hn
      by_cases hs : s = []
      · subst hs
        exact ⟨fun _ => rfl, fun hS => by simp at hS⟩
      cases hsc : scanF .default s with
      | none =>
        -- no delimiter found: the final comma, if any, is not structural
        have hnotS : ¬ (s.getLast? = some ',' ∧
            runState .default s.dropLast = .default) := by
          rintro ⟨hlast, hrun⟩
          rcases List.eq_nil_or_concat s with rfl | ⟨u, c, rfl⟩
          · exact hs rfl
          · rw [List.concat_eq_append] at hlast hrun hsc
            have hc : c = ',' := by
              rw [List.getLast?_concat] at hlast
              simpa using hlast
            subst hc
            rw [List.dropLast_concat] at hrun
            exact scanF_append_comma_ne_none hrun [] hsc
        refine ⟨fun _ => ?_, fun hS => absurd hS hnotS⟩
        rw [tokens_of_some (next_of_scanF_none hs hsc),
          tokens_of_none (next_none_iff.mpr rfl)]
        rfl
      | some tr =>
        obtain ⟨t, r⟩ := tr
        obtain ⟨h1, -, h3⟩ := scanF_some_decomp hsc
        by_cases hr : r = []
        · -- the found comma is the last character: structural trailing comma
          subst hr
          have hS : s.getLast? = some ',' ∧
              runState .default s.dropLast = .default := by
            constructor
            · rw [h1, show t ++ [','] = t ++ [','] from rfl,
                List.getLast?_concat]
            · rw [h1, show (t ++ [',']).dropLast = t from List.dropLast_concat]
              exact h3
          refine ⟨fun hn2 => absurd hS hn2, fun _ => ?_⟩
          rw [tokens_of_some (next_of_scanF_some hs hsc),
            tokens_of_none (next_none_iff.mpr rfl), h1]
          rfl
        · -- the window continues after the comma: the condition transfers
          have hlen : r.length ≤ n := by
            have := scanF_some_length hsc
            omega
          have htr := tokens_ne_nil hr
          have hgl : s.getLast? = r.getLast? := by
            rw [h1, show t ++ ',' :: r = (t ++ [',']) ++ r by simp,
              List.getLast?_append_of_ne_nil _ hr]
          have hdl : runState .default s.dropLast =
              runState .default r.dropLast := by
            rw [h1, show t ++ ',' :: r = (t ++ [',']) ++ r by simp,
              List.dropLast_append_of_ne_nil _ hr, runState_append,
              runState_concat, h3,
              show stepF State.default ',' = State.default from rfl]
          have hcond : (s.getLast? = some ',' ∧
              runState .default s.dropLast = .default) ↔
              (r.getLast? = some ',' ∧
                runState .default r.dropLast = .default) := by
            rw [hgl, hdl]
          obtain ⟨ih1, ih2⟩ := ih r hlen
          constructor
          · intro hn2
            rw [tokens_of_some (next_of_scanF_some hs hsc),
              joinComma_cons t htr, ih1 (fun hc => hn2 (hcond.mpr hc)), h1]
          · intro hS
            rw [tokens_of_some (next_of_scanF_some hs hsc),
              joinComma_cons t htr,
              show (t ++ ',' :: joinComma (tokens r)) ++ [','] =
                t ++ ',' :: (joinComma (tokens r) ++ [',']) by simp,
              ih2 (hcond.mp hS), h1]
  exact hgen s.length s le_rfl

/-- C3 (counterexample): on input `,,` the iterator does not yield three
empty tokens. -/
theorem c3_counterexample : tokens [',', ','] ≠ [[], [], []] := by
  decide

/-- C3 (amended): on input `,,` repeated `next()` calls yield exactly two
empty tokens before exhaustion — after the second comma is consumed the
window is empty and the iterator stops, dropping the third (trailing) empty
token. -/
theorem c3_two_commas : tokens [',', ','] = [[], []] := by
  decide

/-- C4 (counterexample): the quote-free input `,` naively splits into two
empty pieces, but the iterator yields a single empty token. -/
theorem c4_counterexample :
    (∀ c ∈ [','], c ≠ '"' ∧ c ≠ '\'') ∧
    tokens [','] ≠ naiveSplit [','] := by
  decide

/-- C4 (amended): for every nonempty quote-free input that does not end
with a comma, the forward tokens equal the naive split on every comma, with
no trimming.  (On empty input the iterator yields no token while the naive
split has one empty piece; on a trailing comma the final empty piece is
dropped.) -/
theorem c4_quote_free (s : List Char) (h0 : s ≠ [])
    (h1 : s.getLast? ≠ some ',') (h2 : ∀ c ∈ s, c ≠ '"' ∧ c ≠ '\'') :
    tokens s = naiveSplit s := by
  rw [tokens_eq_itokens_of_getLast h0 h1, itokens_eq_naiveSplit h2]

theorem c4_witness : tokens ['a', ',', ',', 'b'] = naiveSplit ['a', ',', ',', 'b'] :=
  c4_quote_free ['a', ',', ',', 'b'] (by decide) (by decide) (by decide)

/-- C5: when the forward walk of a block finds no delimiter and ends in
`Default` state, a following comma is the delimiter: `next` returns that
block (possibly empty, as for two adjacent commas) and the window advances
to just after the comma. -/
theorem c5_default_comma_split (t r : List Char)
    (h1 : scanF .default t = none) (h2 : runState .default t = .default) :
    next (t ++ ',' :: r) = some (t, r) := by
  have hne : t ++ ',' :: r ≠ [] := by simp
  exact next_of_scanF_some hne (scanF_none_append_comma h1 h2 r)

theorem c5_witness : next [',', ','] = some ([], [',']) :=
  c5_default_comma_split [] [','] rfl rfl

/-- C6: inside a quoted span a backslash enters the escape state; the
escape state consumes exactly one character unconditionally (that character
can neither close the quote nor start a new escape) and returns to the
quoted state; consequently a backslash-escaped matching quote character
does not terminate the span and both characters appear verbatim in the
yielded token. -/
theorem c6_quoted_escape (q : Quote) (c : Char) (rest : List Char) :
    stepF (.quoted q) '\\' = .quotedEscape q ∧
    stepF (.quotedEscape q) c = .quoted q ∧
    scanF (.quotedEscape q) (c :: rest) =
      (scanF (.quoted q) rest).map (fun tr => (c :: tr.1, tr.2)) ∧
    scanF (.quoted q) ('\\' :: quoteChar q :: rest) =
      (scanF (.quoted q) rest).map
        (fun tr => ('\\' :: quoteChar q :: tr.1, tr.2)) := by
  have hstep : stepF (State.quoted q) '\\' = State.quotedEscape q := by
    rw [stepF_quoted_eval, if_neg (by cases q <;> decide), if_pos rfl]
  refine ⟨hstep, rfl, ?_, ?_⟩
  · rw [scanF_cons, if_neg (by rintro ⟨h, -⟩; exact absurd h (by simp))]
    rfl
  · rw [scanF_cons, if_neg (by rintro ⟨h, -⟩; exact absurd h (by simp)), hstep,
      scanF_cons, if_neg (by rintro ⟨h, -⟩; exact absurd h (by simp)),
      show stepF (State.quotedEscape q) (quoteChar q) = State.quoted q from rfl]
    cases scanF (State.quoted q) rest <;> rfl

/-- C7: `next` and `nextBack` signal exhaustion exactly when the remaining
window is empty; when the walk finds no delimiter (in particular on
malformed input that ends inside a quote or after a stray backslash) the
whole window is returned verbatim as the final token — no error. -/
theorem c7_exhaustion (s : List Char) :
    (next s = none ↔ s = []) ∧ (nextBack s = none ↔ s = []) ∧
    (scanF .default s = none → s ≠ [] → next s = some (s, [])) ∧
    (scanBack .default s.reverse = none → s ≠ [] → nextBack s = some (s, [])) :=
  ⟨next_none_iff, nextBack_none_iff,
    fun h hs => next_of_scanF_none hs h,
    fun h hs => nextBack_of_scanBack_none hs h⟩

theorem c7_witness :
    next ['"', 'a'] = some (['"', 'a'], []) ∧
    nextBack ['a', '\\'] = some (['a', '\\'], []) :=
  ⟨(c7_exhaustion ['"', 'a']).2.2.1 (by decide) (by decide),
    (c7_exhaustion ['a', '\\']).2.2.2 (by decide) (by decide)⟩

theorem next_window_decomp {s t r : List Char} (h : next s = some (t, r)) :
    ∃ pre, s = pre ++ r := by
  by_cases hs : s = []
  · subst hs; simp [next] at h
  · rw [next, if_neg hs] at h
    cases hsc : scanF .default s with
    | none =>
      rw [hsc] at h
      obtain ⟨ht, hr⟩ : s = t ∧ ([] : List Char) = r := by simpa using h
      exact ⟨s, by rw [← hr, List.append_nil]⟩
    | some tr =>
      rw [hsc] at h
      obtain ⟨rfl⟩ : tr = (t, r) := by simpa using h
      obtain ⟨h1, -, -⟩ := scanF_some_decomp hsc
      exact ⟨t ++ [','], by rw [h1]; simp⟩

theorem nextBack_window_decomp {s t r : List Char}
    (h : nextBack s = some (t, r)) : ∃ post, s = r ++ post := by
  rcases nextBack_some_decomp h with ⟨h1, -, -⟩ | ⟨-, h2, -⟩
  · exact ⟨',' :: t, h1⟩
  · subst h2; exact ⟨s, (List.nil_append s).symm⟩

/-- C8: the window decompositions used by slicing always exist: on a
nonempty window both calls succeed and return either an exact
token-comma-rest decomposition of the window or the whole window — every
cut is between whole characters, so no slicing operation is undefined. -/
theorem c8_slices_defined (s : List Char) (h : s ≠ []) :
    (∃ t r, next s = some (t, r) ∧ (s = t ++ ',' :: r ∨ (t = s ∧ r = []))) ∧
    (∃ t r, nextBack s = some (t, r) ∧ (s = r ++ ',' :: t ∨ (t = s ∧ r = []))) := by
  constructor
  · cases hsc : scanF .default s with
    | none => exact ⟨s, [], next_of_scanF_none h hsc, Or.inr ⟨rfl, rfl⟩⟩
    | some tr =>
      obtain ⟨t, r⟩ := tr
      obtain ⟨h1, -, -⟩ := scanF_some_decomp hsc
      exact ⟨t, r, next_of_scanF_some h hsc, Or.inl h1⟩
  · cases hsc : scanBack .default s.reverse with
    | none => exact ⟨s, [], nextBack_of_scanBack_none h hsc, Or.inr ⟨rfl, rfl⟩⟩
    | some tr2 =>
      obtain ⟨tr, rr⟩ := tr2
      obtain ⟨h1, -, -⟩ := scanBack_some_decomp hsc
      have hsplit : s = rr.reverse ++ ',' :: tr.reverse := by
        have := congrArg List.reverse h1
        simpa [List.reverse_append] using this
      exact ⟨tr.reverse, rr.reverse, nextBack_of_scanBack_some h hsc,
        Or.inl hsplit⟩

theorem c8_witness :
    (∃ t r, next ['a', ',', 'b'] = some (t, r) ∧
      (['a', ',', 'b'] = t ++ ',' :: r ∨ (t = ['a', ',', 'b'] ∧ r = []))) ∧
    (∃ t r, nextBack ['a', ',', 'b'] = some (t, r) ∧
      (['a', ',', 'b'] = r ++ ',' :: t ∨ (t = ['a', ',', 'b'] ∧ r = []))) :=
  c8_slices_defined ['a', ',', 'b'] (by decide)

/-- C9: the window is always a contiguous sub-range of the original input:
`next` shrinks it only from the front and `nextBack` only from the back,
each call strictly shrinking a nonempty window, and every window reachable
under any alternation of directions is an inner segment of the original. -/
theorem c9_window_shrinks :
    (∀ s t r : List Char, next s = some (t, r) →
      (∃ pre, s = pre ++ r) ∧ r.length < s.length) ∧
    (∀ s t r : List Char, nextBack s = some (t, r) →
      (∃ post, s = r ++ post) ∧ r.length < s.length) ∧
    (∀ s₀ s : List Char, WindowReach s₀ s →
      ∃ pre post, s₀ = pre ++ s ++ post) := by
  refine ⟨fun s t r h => ⟨next_window_decomp h, next_some_length h⟩,
    fun s t r h => ⟨nextBack_window_decomp h, nextBack_some_length h⟩, ?_⟩
  intro s₀ s h
  induction h with
  | refl => exact ⟨[], [], by simp⟩
  | stepFwd hreach hnext ih =>
    obtain ⟨pre, post, hsp⟩ := ih
    obtain ⟨pre2, hw⟩ := next_window_decomp hnext
    exact ⟨pre ++ pre2, post, by rw [hsp, hw]; simp⟩
  | stepBwd hreach hnext ih =>
    obtain ⟨pre, post, hsp⟩ := ih
    obtain ⟨post2, hw⟩ := nextBack_window_decomp hnext
    exact ⟨pre, post2 ++ post, by rw [hsp, hw]; simp⟩

theorem c9_witness :
    ((∃ pre, (['a', ',', 'b'] : List Char) = pre ++ ['b']) ∧
      (['b'] : List Char).length < (['a', ',', 'b'] : List Char).length) ∧
    (∃ pre post, (['a', ',', 'b'] : List Char) = pre ++ ['b'] ++ post) :=
  ⟨c9_window_shrinks.1 ['a', ',', 'b'] ['a'] ['b'] (by decide),
    c9_window_shrinks.2.2 ['a', ',', 'b'] ['b']
      (WindowReach.stepFwd (WindowReach.refl _)
        (show next ['a', ',', 'b'] = some (['a'], ['b']) by decide))⟩

theorem stepB_ne_escape (st : State) (c : Char) (p : Option Char)
    (q : Quote) : stepB st c p ≠ .quotedEscape q := by
  cases st with
  | default =>
    rw [stepB_default_eval]
    by_cases h1 : c = '"'
    · rw [if_pos h1]; simp
    · by_cases h2 : c = '\''
      · rw [if_neg h1, if_pos h2]; simp
      · rw [if_neg h1, if_neg h2]; simp
  | quoted q2 =>
    rw [stepB_quoted_eval]
    by_cases h1 : c = quoteChar q2
    · rw [if_pos h1]
      by_cases h3 : p = some '\\'
      · rw [if_pos h3]; simp
      · rw [if_neg h3]; simp
    · rw [if_neg h1]; simp
  | quotedEscape q2 => rw [stepB_escape_eval]; simp

theorem scanBackStates_no_escape {st : State}
    (h : ∀ q, st ≠ .quotedEscape q) (l : List Char) (p : Option Char)
    (q : Quote) : State.quotedEscape q ∉ scanBackStates st l p := by
  induction l generalizing st with
  | nil =>
    rw [scanBackStates]
    simp only [List.mem_singleton]
    exact fun heq => h q heq.symm
  | cons c rest ih =>
    rw [scanBackStates]
    by_cases hc : st = .default ∧ c = ','
    · rw [if_pos hc]
      simp only [List.mem_singleton]
      exact fun heq => h q heq.symm
    · rw [if_neg hc]
      intro hmem
      rcases List.mem_cons.mp hmem with heq | hmem2
      · exact h q heq.symm
      · exact ih (fun q2 => stepB_ne_escape st c (peek rest p) q2) hmem2

/-- C10: the backward scan never enters the `QuotedEscape` state: no
backward transition produces it, and starting from `Default` the visited
states never include it — the `QuotedEscape` arm of `next_back` is
unreachable. -/
theorem c10_no_escape_state_backward :
    (∀ (st : State) (c : Char) (p : Option Char) (q : Quote),
      stepB st c p ≠ .quotedEscape q) ∧
    (∀ (s : List Char) (q : Quote),
      State.quotedEscape q ∉ scanBackStates .default s.reverse none) :=
  ⟨stepB_ne_escape,
    fun s q => scanBackStates_no_escape (fun _ h => by cases h) s.reverse none q⟩

theorem c10_witness :
    stepB .default '"' (some '\\') ≠ State.quotedEscape Quote.double ∧
    State.quotedEscape Quote.double ∉
      scanBackStates .default ['"', 'a', ',', '\\'].reverse none :=
  ⟨c10_no_escape_state_backward.1 .default '"' (some '\\') Quote.double,
    c10_no_escape_state_backward.2 ['"', 'a', ',', '\\'] Quote.double⟩

theorem c2_witness :
    joinComma (tokens ['\'', 'a', ',']) = ['\'', 'a', ','] ∧
    joinComma (tokens ['a', ',']) ++ [','] = ['a', ','] :=
  ⟨(c2_roundtrip ['\'', 'a', ',']).1 (by decide),
    (c2_roundtrip ['a', ',']).2 ⟨by decide, by decide⟩⟩

theorem c6_witness :
    stepF (.quoted Quote.double) '\\' = .quotedEscape Quote.double ∧
    stepF (.quotedEscape Quote.double) '"' = .quoted Quote.double ∧
    scanF (.quotedEscape Quote.double) ('"' :: [',']) =
      (scanF (.quoted Quote.double) [',']).map
        (fun tr => ('"' :: tr.1, tr.2)) ∧
    scanF (.quoted Quote.double) ('\\' :: quoteChar Quote.double :: [',']) =
      (scanF (.quoted Quote.double) [',']).map
        (fun tr => ('\\' :: quoteChar Quote.double :: tr.1, tr.2)) :=
  c6_quoted_escape Quote.double '"' [',']

end CommaSeparated

